import Mathlib

/-!
Verification of the document-scanner core pipeline
(`src/document_processor.py`, `src/camera_handler.py`).

Embedding conventions:
* Pixel coordinates of contour points are integers (`cv2.findContours` /
  `cv2.approxPolyDP` return `int32` pixel coordinates), so points are `ℤ × ℤ`.
  The float32 cast in `order_points` is exact on these values.
* Images are grids with explicit height/width and a total pixel function;
  8-bit channel values are `ℕ` (range 0..255 maintained by the transforms).
* `int(np.sqrt s)` on a nonnegative integer `s` is `Nat.sqrt s` (floor of the
  real square root, bridged by `Real.nat_floor_real_sqrt_eq_nat_sqrt`).
* External OpenCV routines that the repository merely calls (Canny, dilation,
  Gaussian blurs, contour extraction, polygon approximation, the homography
  solver and resampler) are fields of the `CV` parameter structure; repository
  logic (ordering, sorting, selection loops, thresholding, median filtering,
  grayscale conversion and composition) is translated concretely.
* `np.argmin` / `np.argmax` return the first index attaining the extremum;
  `argminIdx` / `argmaxIdx` below implement exactly that and are proved to.
-/

/-- A 2-D point in image space: origin top-left, x right, y down. -/
abbrev Pt := ℤ × ℤ

/-- A contour: a sequence of integer pixel points. -/
abbrev Contour := List Pt

/-- A quadrilateral in canonical order: top-left, top-right, bottom-right,
bottom-left, mirroring rows 0..3 of the `rect` array in `order_points`. -/
structure Quad where
  tl : Pt
  tr : Pt
  br : Pt
  bl : Pt
deriving DecidableEq

/-- A 3x3 perspective matrix (value passed between the homography solver and
the resampler; its entries are never inspected by repository code). -/
abbrev Mat3 := (ℚ × ℚ × ℚ) × (ℚ × ℚ × ℚ) × (ℚ × ℚ × ℚ)

/-- First index of the minimum of a list of keys, as `np.argmin` computes it
(first occurrence wins ties); returns 0 on the empty list. -/
def argminIdx : List ℤ → ℕ
  | [] => 0
  | [_] => 0
  | k :: a :: t =>
    if (a :: t).getD (argminIdx (a :: t)) 0 < k then argminIdx (a :: t) + 1 else 0

/-- First index of the maximum of a list of keys, as `np.argmax` computes it
(first occurrence wins ties); returns 0 on the empty list. -/
def argmaxIdx : List ℤ → ℕ
  | [] => 0
  | [_] => 0
  | k :: a :: t =>
    if k < (a :: t).getD (argmaxIdx (a :: t)) 0 then argmaxIdx (a :: t) + 1 else 0

/-- Coordinate sum `x + y` (the key `pts.sum(axis=1)` computes per point). -/
def keySum (p : Pt) : ℤ := p.1 + p.2

/-- Coordinate difference `y - x` (the key `np.diff(pts, axis=1)` computes
per point: column 1 minus column 0). -/
def keyDiff (p : Pt) : ℤ := p.2 - p.1

/-- Coordinate difference `x - y`, the key the specification text speaks of. -/
def keyXY (p : Pt) : ℤ := p.1 - p.2

/-- `DocumentProcessor.order_points`: top-left = row of minimal coordinate sum,
bottom-right = row of maximal sum, top-right = row of minimal `y - x`,
bottom-left = row of maximal `y - x` (lines 125-143 of
`document_processor.py`). -/
def order_points (pts : List Pt) : Quad :=
  let s := pts.map keySum
  let d := pts.map keyDiff
  { tl := pts.getD (argminIdx s) (0, 0)
    tr := pts.getD (argminIdx d) (0, 0)
    br := pts.getD (argmaxIdx s) (0, 0)
    bl := pts.getD (argmaxIdx d) (0, 0) }

/-- The point-ordering rule exactly as the claim words it: top-left minimizes
x+y, bottom-right maximizes x+y, top-right minimizes x-y, bottom-left
maximizes x-y, first point in input order winning ties. -/
def claimOrderPoints (pts : List Pt) : Quad :=
  { tl := pts.getD (argminIdx (pts.map keySum)) (0, 0)
    tr := pts.getD (argminIdx (pts.map keyXY)) (0, 0)
    br := pts.getD (argmaxIdx (pts.map keySum)) (0, 0)
    bl := pts.getD (argmaxIdx (pts.map keyXY)) (0, 0) }

/-- `p` is the element of `l` selected by a first-occurrence minimum of `key`:
it sits at an index `i`, no element has a smaller key, and every element
before `i` has a strictly larger key. -/
def FirstMinOf (key : Pt → ℤ) (l : List Pt) (p : Pt) : Prop :=
  ∃ i, i < l.length ∧ p = l.getD i (0, 0) ∧
    (∀ j, j < l.length → key p ≤ key (l.getD j (0, 0))) ∧
    (∀ j, j < i → key p < key (l.getD j (0, 0)))

/-- `p` is the element of `l` selected by a first-occurrence maximum of `key`. -/
def FirstMaxOf (key : Pt → ℤ) (l : List Pt) (p : Pt) : Prop :=
  ∃ i, i < l.length ∧ p = l.getD i (0, 0) ∧
    (∀ j, j < l.length → key (l.getD j (0, 0)) ≤ key p) ∧
    (∀ j, j < i → key (l.getD j (0, 0)) < key p)

/-- Squared euclidean distance between two integer points (a natural number). -/
def sqDist (p q : Pt) : ℕ := ((p.1 - q.1) ^ 2 + (p.2 - q.2) ^ 2).toNat

/-- Output width of `correct_perspective`:
`max(int(widthA), int(widthB))` with `widthA = dist(br, bl)` and
`widthB = dist(tr, tl)` (lines 100-102 of `document_processor.py`). -/
def maxWidthOf (q : Quad) : ℕ :=
  max (Nat.sqrt (sqDist q.br q.bl)) (Nat.sqrt (sqDist q.tr q.tl))

/-- Output height of `correct_perspective`:
`max(int(heightA), int(heightB))` with `heightA = dist(tr, br)` and
`heightB = dist(tl, bl)` (lines 105-107 of `document_processor.py`). -/
def maxHeightOf (q : Quad) : ℕ :=
  max (Nat.sqrt (sqDist q.tr q.br)) (Nat.sqrt (sqDist q.tl q.bl))

/-- The destination rectangle `dst` of `correct_perspective`:
`(0,0), (w-1,0), (w-1,h-1), (0,h-1)` (lines 110-115). -/
def dstQuad (w h : ℕ) : Quad :=
  { tl := (0, 0)
    tr := ((w : ℤ) - 1, 0)
    br := ((w : ℤ) - 1, (h : ℤ) - 1)
    bl := (0, (h : ℤ) - 1) }

/-- Twice the signed (shoelace) area of a quadrilateral in canonical order;
the `Quadrilateral` data-model invariant requires this to be nonzero
(positive enclosed area). -/
def shoelace (q : Quad) : ℤ :=
  q.tl.1 * q.tr.2 - q.tr.1 * q.tl.2 + q.tr.1 * q.br.2 - q.br.1 * q.tr.2 +
    q.br.1 * q.bl.2 - q.bl.1 * q.br.2 + q.bl.1 * q.tl.2 - q.tl.1 * q.bl.2

/-- A single-channel 8-bit image: height, width, and a total pixel lookup
(indices outside the h x w grid are don't-care values). -/
structure GrayImg where
  h : ℕ
  w : ℕ
  pix : ℕ → ℕ → ℕ

/-- A 3-channel 8-bit BGR image; a pixel is the triple (blue, green, red). -/
structure ColorImg where
  h : ℕ
  w : ℕ
  pix : ℕ → ℕ → ℕ × ℕ × ℕ

/-- A pixel buffer that is either 3-channel or single-channel, matching the
`len(image.shape) == 3` dispatch in the Python code. -/
inductive Image where
  | color (c : ColorImg)
  | gray (g : GrayImg)

/-- OpenCV fixed-point BGR to gray conversion:
`(1868*B + 9617*G + 4899*R + 2^13) >> 14` (the integer form of
`0.299 R + 0.587 G + 0.114 B` used by `cv2.cvtColor(.., COLOR_BGR2GRAY)`). -/
def grayOf (p : ℕ × ℕ × ℕ) : ℕ :=
  (1868 * p.1 + 9617 * p.2.1 + 4899 * p.2.2 + 8192) / 16384

/-- `cv2.cvtColor(image, cv2.COLOR_BGR2GRAY)`. -/
def cvtBGR2GRAY (c : ColorImg) : GrayImg :=
  { h := c.h, w := c.w, pix := fun i j => grayOf (c.pix i j) }

/-- `cv2.cvtColor(image, cv2.COLOR_GRAY2BGR)`: replicate the channel. -/
def cvtGRAY2BGR (g : GrayImg) : ColorImg :=
  { h := g.h, w := g.w, pix := fun i j => (g.pix i j, g.pix i j, g.pix i j) }

/-- Clamp an integer index into `[0, n-1]` (OpenCV replicated border, used by
`cv2.medianBlur`). -/
def clampIdx (n : ℕ) (i : ℤ) : ℕ :=
  if i < 0 then 0 else if (n : ℤ) ≤ i then n - 1 else i.toNat

/-- Reflected border index without edge duplication (OpenCV default
`BORDER_REFLECT_101`, used by `cv2.Laplacian` and `cv2.filter2D`), for
offsets of at most one pixel outside the grid. -/
def r101 (n : ℕ) (i : ℤ) : ℕ :=
  if n ≤ 1 then 0
  else if i < 0 then (-i).toNat
  else if (n : ℤ) ≤ i then (2 * ((n : ℤ) - 1) - i).toNat
  else i.toNat

/-- Median of a 9-element sample: 5th smallest value. -/
def med9 (l : List ℕ) : ℕ := (List.insertionSort (· ≤ ·) l).getD 4 0

/-- The 3x3 neighborhood sample of a pixel with replicated border. -/
def nbhd9 (g : GrayImg) (i j : ℕ) : List ℕ :=
  [(-1, -1), (-1, 0), (-1, 1), (0, -1), (0, 0), (0, 1), (1, -1), (1, 0), (1, 1)].map
    (fun d : ℤ × ℤ => g.pix (clampIdx g.h ((i : ℤ) + d.1)) (clampIdx g.w ((j : ℤ) + d.2)))

/-- `cv2.medianBlur(img, 3)`: per-pixel median of the 3x3 neighborhood. -/
def medianBlur3 (g : GrayImg) : GrayImg :=
  { h := g.h, w := g.w, pix := fun i j => med9 (nbhd9 g i j) }

/-- `cv2.adaptiveThreshold(src, 255, ADAPTIVE_THRESH_GAUSSIAN_C, THRESH_BINARY,
11, 2)`: the pixel becomes 255 when its value exceeds the 11x11
Gaussian-weighted local mean minus 2, else 0.  The local-mean image `mean`
(an external Gaussian filtering step) is supplied by the caller. -/
def adaptiveThreshold11 (mean src : GrayImg) : GrayImg :=
  { h := src.h, w := src.w
    pix := fun i j => if (mean.pix i j : ℤ) - 2 < (src.pix i j : ℤ) then 255 else 0 }

/-- External OpenCV routines used by the repository, abstracted as a parameter
structure: the repository composes them but does not implement them. -/
structure CV where
  /-- `cv2.GaussianBlur(gray, (5, 5), 0)`. -/
  blur5 : GrayImg → GrayImg
  /-- `cv2.Canny(blurred, 50, 150)`. -/
  canny : GrayImg → GrayImg
  /-- `cv2.dilate(edges, 3x3 rect kernel, iterations=1)`. -/
  dilate3 : GrayImg → GrayImg
  /-- The 11x11 Gaussian local-mean image that `cv2.adaptiveThreshold` with
  `ADAPTIVE_THRESH_GAUSSIAN_C` and block size 11 thresholds against. -/
  gaussMean11 : GrayImg → GrayImg
  /-- `cv2.findContours(img, RETR_EXTERNAL, CHAIN_APPROX_SIMPLE)` followed by
  `imutils.grab_contours`. -/
  findContours : GrayImg → List Contour
  /-- `cv2.contourArea`. -/
  contourArea : Contour → ℚ
  /-- `cv2.arcLength(cnt, True)`. -/
  arcLength : Contour → ℚ
  /-- `cv2.approxPolyDP(cnt, epsilon, True)`. -/
  approxPolyDP : Contour → ℚ → Contour
  /-- `cv2.getPerspectiveTransform(rect, dst)`. -/
  getPerspectiveTransform : Quad → Quad → Mat3
  /-- `cv2.warpPerspective(image, M, (maxWidth, maxHeight))`; the size pair is
  (width, height), the result an image of exactly that size. -/
  warpPerspective : ColorImg → Mat3 → ℕ × ℕ → ColorImg

/-- Contour ranking relation of `detect_document_contour`: descending by
`cv2.contourArea` (Python `sorted(key=cv2.contourArea, reverse=True)`). -/
def areaGE (P : CV) (a b : Contour) : Prop := P.contourArea b ≤ P.contourArea a

instance (P : CV) : DecidableRel (areaGE P) :=
  fun a b => inferInstanceAs (Decidable (P.contourArea b ≤ P.contourArea a))

instance (P : CV) : IsTotal Contour (areaGE P) :=
  ⟨fun a b => le_total (P.contourArea b) (P.contourArea a)⟩

instance (P : CV) : IsTrans Contour (areaGE P) :=
  ⟨fun _ _ _ hab hbc => le_trans hbc hab⟩

/-- The contour list sorted by enclosed area, largest first (stable, as
Python's `sorted` is). -/
def sortedContours (P : CV) (cnts : List Contour) : List Contour :=
  List.insertionSort (areaGE P) cnts

/-- Polygon approximation at 2 percent of the contour perimeter:
`cv2.approxPolyDP(cnt, 0.02 * cv2.arcLength(cnt, True), True)`. -/
def approxOf (P : CV) (cnt : Contour) : Contour :=
  P.approxPolyDP cnt (2 / 100 * P.arcLength cnt)

/-- One step of the candidate loop: keep the approximation iff it has exactly
4 vertices (`if len(approx) == 4: return approx`). -/
def quadStep (P : CV) (cnt : Contour) : Option Contour :=
  if (approxOf P cnt).length = 4 then some (approxOf P cnt) else none

/-- The candidate loop of `detect_document_contour`
(`for cnt in cnts[:5]: ... if len(approx) == 4: return approx`): first
contour whose approximation has exactly 4 vertices. -/
def firstQuad (P : CV) : List Contour → Option Contour
  | [] => none
  | c :: rest =>
    match quadStep P c with
    | some q => some q
    | none => firstQuad P rest

/-- `DocumentProcessor.detect_document_contour` (lines 64-86): extract
contours, bail out if none, sort by area descending, scan the 5 largest and
return the first 2-percent approximation with exactly 4 vertices. -/
def detect_document_contour (P : CV) (img : GrayImg) : Option Contour :=
  match P.findContours img with
  | [] => none
  | c0 :: rest => firstQuad P ((sortedContours P (c0 :: rest)).take 5)

/-- `DocumentProcessor.preprocess_image` (lines 47-62): grayscale, 5x5
Gaussian blur, Canny 50/150, one 3x3 dilation. -/
def preprocess_image (P : CV) (image : ColorImg) : GrayImg :=
  P.dilate3 (P.canny (P.blur5 (cvtBGR2GRAY image)))

/-- `DocumentProcessor.correct_perspective` (lines 88-123): order the 4
contour points, compute the output size from the side lengths, build the
destination rectangle, solve the homography and resample. -/
def correct_perspective (P : CV) (image : ColorImg) (cnt : Contour) : ColorImg :=
  let rect := order_points cnt
  let mw := maxWidthOf rect
  let mh := maxHeightOf rect
  P.warpPerspective image (P.getPerspectiveTransform rect (dstQuad mw mh)) (mw, mh)

/-- `DocumentProcessor.enhance_image` (lines 145-167): grayscale when the
input has 3 channels, adaptive Gaussian threshold (block 11, C=2), 3x3 median
blur, and conversion back to BGR for 3-channel inputs. -/
def enhance_image (P : CV) : Image → Image
  | Image.color c =>
    let gray := cvtBGR2GRAY c
    Image.color (cvtGRAY2BGR (medianBlur3 (adaptiveThreshold11 (P.gaussMean11 gray) gray)))
  | Image.gray g =>
    Image.gray (medianBlur3 (adaptiveThreshold11 (P.gaussMean11 g) g))

/-- `DocumentProcessor.process_document` (lines 20-45): preprocess, detect the
document contour, then either rectify the original buffer and enhance, or
enhance the original buffer directly (fallback).  The model's transforms are
total, so the `except` branch returning `None` is unreachable. -/
def process_document (P : CV) (image : ColorImg) : Option Image :=
  match detect_document_contour P (preprocess_image P image) with
  | some cnt => some (enhance_image P (Image.color (correct_perspective P image cnt)))
  | none => some (enhance_image P (Image.color image))

/-- Grid sum of a rational-valued function over an h x w index range. -/
def gridSum (h w : ℕ) (f : ℕ → ℕ → ℚ) : ℚ :=
  ((List.range h).map (fun i => ((List.range w).map (fun j => f i j)).sum)).sum

/-- `cv2.Laplacian(gray, cv2.CV_64F)` at one pixel: kernel
`[[0,1,0],[1,-4,1],[0,1,0]]` with reflected border, exact on integers. -/
def laplacianAt (g : GrayImg) (i j : ℕ) : ℤ :=
  (g.pix (r101 g.h ((i : ℤ) - 1)) j : ℤ) + (g.pix (r101 g.h ((i : ℤ) + 1)) j : ℤ) +
    (g.pix i (r101 g.w ((j : ℤ) - 1)) : ℤ) + (g.pix i (r101 g.w ((j : ℤ) + 1)) : ℤ) -
    4 * (g.pix i j : ℤ)

/-- Sharpness score of one frame in `CameraHandler._select_sharpest_frame`:
`cv2.Laplacian(cv2.cvtColor(frame, COLOR_BGR2GRAY), CV_64F).var()`, the
population variance of the Laplacian response. -/
def laplacianVariance (frame : ColorImg) : ℚ :=
  let g := cvtBGR2GRAY frame
  let n : ℕ := g.h * g.w
  if n = 0 then 0
  else
    let mean := gridSum g.h g.w (fun i j => (laplacianAt g i j : ℚ)) / (n : ℚ)
    gridSum g.h g.w (fun i j => ((laplacianAt g i j : ℚ) - mean) ^ 2) / (n : ℚ)

/-- The scan loop of `_select_sharpest_frame` (lines 163-176 of
`camera_handler.py`): running best frame and best variance, updated on a
strict improvement (`if variance > max_variance`). -/
def selectLoop (best : ColorImg) (mv : ℚ) : List ColorImg → ColorImg
  | [] => best
  | f :: rest =>
    if mv < laplacianVariance f then selectLoop f (laplacianVariance f) rest
    else selectLoop best mv rest

/-- `CameraHandler._select_sharpest_frame`: initial best is `frames[0]` with
`max_variance = 0`, then the scan loop over all frames.  On the empty list the
Python code fails on `frames[0]` (index error); the model returns `none`,
making the nonempty input precondition explicit. -/
def select_sharpest_frame : List ColorImg → Option ColorImg
  | [] => none
  | f :: rest => some (selectLoop f 0 (f :: rest))

/-- `CameraHandler._enhance_for_document` (lines 179-200): grayscale, 5x5
Gaussian blur, adaptive Gaussian threshold (block 11, C=2), back to BGR. -/
def enhance_for_document (P : CV) (frame : ColorImg) : ColorImg :=
  let blurred := P.blur5 (cvtBGR2GRAY frame)
  cvtGRAY2BGR (adaptiveThreshold11 (P.gaussMean11 blurred) blurred)

/-- `CameraHandler.capture_high_quality` (lines 132-159), capture portion:
`reads` are the results of the `camera.read()` attempts (`none` = failed
read); the successful frames form the burst.  An empty burst returns `None`
("no frame available"); otherwise the sharpest frame is selected and the
document enhancement applied. -/
def capture_high_quality (P : CV) (reads : List (Option ColorImg)) : Option ColorImg :=
  match reads.filterMap id with
  | [] => none
  | f :: rest => (select_sharpest_frame (f :: rest)).map (enhance_for_document P)

/-- Modelled from the spec (glossary and 4.5): rational Rec.601 luminance of a
BGR pixel, `0.299 R + 0.587 G + 0.114 B`. -/
def lumaOf (p : ℕ × ℕ × ℕ) : ℚ :=
  (299 * (p.2.2 : ℚ) + 587 * (p.2.1 : ℚ) + 114 * (p.1 : ℚ)) / 1000

/-- Modelled from the spec (4.5): the chrominance content of a BGR pixel,
the pair of blue and red differences from the luminance.  A pixel with three
equal channels has chrominance (0, 0). -/
def chromaOf (p : ℕ × ℕ × ℕ) : ℚ × ℚ :=
  ((p.1 : ℚ) - lumaOf p, (p.2.2 : ℚ) - lumaOf p)

/-- List of the pixels of a color image in row-major order. -/
def pixList (c : ColorImg) : List (ℕ × ℕ × ℕ) :=
  ((List.range c.h).map (fun i => (List.range c.w).map (fun j => c.pix i j))).flatten

/-- Minimum of one channel over an image (channel selected by `ch`). -/
def chanMin (ch : ℕ × ℕ × ℕ → ℕ) (c : ColorImg) : ℕ :=
  ((pixList c).map ch).foldr min 255

/-- Maximum of one channel over an image (channel selected by `ch`). -/
def chanMax (ch : ℕ × ℕ × ℕ → ℕ) (c : ColorImg) : ℕ :=
  ((pixList c).map ch).foldr max 0

/-- Saturate an integer convolution response to the 8-bit range. -/
def sat255 (x : ℤ) : ℕ := (max 0 (min x 255)).toNat

/-- One channel of a 3x3 convolution with center weight 9 and neighbor weight
-1 at one pixel, reflected border. -/
def sharpenConvAt (img : ColorImg) (ch : ℕ × ℕ × ℕ → ℕ) (i j : ℕ) : ℤ :=
  9 * (ch (img.pix i j) : ℤ) -
    ((ch (img.pix (r101 img.h ((i : ℤ) - 1)) (r101 img.w ((j : ℤ) - 1))) : ℤ) +
      (ch (img.pix (r101 img.h ((i : ℤ) - 1)) j) : ℤ) +
      (ch (img.pix (r101 img.h ((i : ℤ) - 1)) (r101 img.w ((j : ℤ) + 1))) : ℤ) +
      (ch (img.pix i (r101 img.w ((j : ℤ) - 1))) : ℤ) +
      (ch (img.pix i (r101 img.w ((j : ℤ) + 1))) : ℤ) +
      (ch (img.pix (r101 img.h ((i : ℤ) + 1)) (r101 img.w ((j : ℤ) - 1))) : ℤ) +
      (ch (img.pix (r101 img.h ((i : ℤ) + 1)) j) : ℤ) +
      (ch (img.pix (r101 img.h ((i : ℤ) + 1)) (r101 img.w ((j : ℤ) + 1))) : ℤ))

/-- Modelled from the spec (4.5, visual mode): the fixed 3x3 sharpening
convolution with center weight 9 and neighbor weight -1, per channel, with
saturation to the 8-bit range. -/
def specSharpen (img : ColorImg) : ColorImg :=
  { h := img.h, w := img.w
    pix := fun i j =>
      (sat255 (sharpenConvAt img (fun p => p.1) i j),
        sat255 (sharpenConvAt img (fun p => p.2.1) i j),
        sat255 (sharpenConvAt img (fun p => p.2.2) i j)) }

/-- Modelled from the spec (4.5, visual mode, first stage): a necessary
property of the bilateral denoise step.  A bilateral filter outputs, per
channel, a normalized positive-weight average of input pixel values, so each
output channel stays within the global range of that channel in the input,
and the buffer shape is preserved. -/
def SmoothingBounded (den : ColorImg → ColorImg) : Prop :=
  ∀ img : ColorImg, (den img).h = img.h ∧ (den img).w = img.w ∧
    ∀ i j, i < img.h → j < img.w →
      (chanMin (fun p => p.1) img ≤ ((den img).pix i j).1 ∧
          ((den img).pix i j).1 ≤ chanMax (fun p => p.1) img) ∧
        (chanMin (fun p => p.2.1) img ≤ ((den img).pix i j).2.1 ∧
          ((den img).pix i j).2.1 ≤ chanMax (fun p => p.2.1) img) ∧
        (chanMin (fun p => p.2.2) img ≤ ((den img).pix i j).2.2 ∧
          ((den img).pix i j).2.2 ≤ chanMax (fun p => p.2.2) img)

/-- Modelled from the spec (4.5, visual mode, last stage): the output is the
denoised-and-sharpened buffer with an adaptively equalized luminance channel
recomposed with that buffer's chrominance channels — so the output's
chrominance content at every grid pixel equals that of the sharpened
buffer, and the shape is preserved. -/
def RecomposedWithChroma (f den : ColorImg → ColorImg) : Prop :=
  ∀ img : ColorImg, (f img).h = img.h ∧ (f img).w = img.w ∧
    ∀ i j, i < img.h → j < img.w →
      chromaOf ((f img).pix i j) = chromaOf ((specSharpen (den img)).pix i j)

/-- Modelled from the spec (4.5): `f` behaves as the visual-mode Enhancement
Pipeline — a bilateral denoise followed by the fixed 3x3 sharpen followed by
a luminance-only contrast step recomposed with the chrominance channels. -/
def VisualModeSpec (f : ColorImg → ColorImg) : Prop :=
  ∃ den : ColorImg → ColorImg, SmoothingBounded den ∧ RecomposedWithChroma f den

/-- A 2x2 uniform gray test buffer. -/
def img0 : ColorImg := { h := 2, w := 2, pix := fun _ _ => (200, 200, 200) }

/-- A concrete 4-point rectangle contour (width 4, height 3). -/
def quadC : Contour := [(0, 0), (4, 0), (4, 3), (0, 3)]

/-- A zero 3x3 matrix standing in for a homography value. -/
def zeroMat : Mat3 := ((0, 0, 0), (0, 0, 0), (0, 0, 0))

/-- A concrete instantiation of the external routines: identity filters, a
contour extractor that reports the rectangle `quadC`, an approximation that
returns its input, and a resampler producing a uniform blue buffer of the
requested size. -/
def P0 : CV :=
  { blur5 := id
    canny := id
    dilate3 := id
    gaussMean11 := id
    findContours := fun _ => [quadC]
    contourArea := fun _ => 0
    arcLength := fun _ => 0
    approxPolyDP := fun c _ => c
    getPerspectiveTransform := fun _ _ => zeroMat
    warpPerspective := fun _ _ wh => { h := wh.2, w := wh.1, pix := fun _ _ => (255, 0, 0) } }

/-- The same external routines with a contour extractor that finds nothing,
exercising the fallback path. -/
def P1 : CV := { P0 with findContours := fun _ => [] }

/-- The rectified buffer produced on the `P0` run: a uniform blue 3 x 4
buffer (nonzero chrominance). -/
def rect0 : ColorImg := correct_perspective P0 img0 quadC

/-- The literal value of `rect0`: a uniform blue 3 x 4 buffer. -/
def blueImg : ColorImg := { h := 3, w := 4, pix := fun _ _ => (255, 0, 0) }

/-- A uniform 1 x 2 test frame (zero Laplacian variance). -/
def frameA : ColorImg := { h := 1, w := 2, pix := fun _ _ => (10, 10, 10) }

/-- A contrasting 1 x 2 test frame (positive Laplacian variance). -/
def frameB : ColorImg :=
  { h := 1, w := 2, pix := fun _ j => if j = 0 then (0, 0, 0) else (100, 100, 100) }

theorem argminIdx_cons2 (k a : ℤ) (t : List ℤ) :
    argminIdx (k :: a :: t) =
      if (a :: t).getD (argminIdx (a :: t)) 0 < k then argminIdx (a :: t) + 1 else 0 := rfl

theorem argmaxIdx_cons2 (k a : ℤ) (t : List ℤ) :
    argmaxIdx (k :: a :: t) =
      if k < (a :: t).getD (argmaxIdx (a :: t)) 0 then argmaxIdx (a :: t) + 1 else 0 := rfl

theorem argminIdx_lt (l : List ℤ) (hl : l ≠ []) : argminIdx l < l.length := by
  induction l with
  | nil => exact absurd rfl hl
  | cons k ks ih =>
    cases ks with
    | nil => simp [argminIdx]
    | cons a t =>
      have h := ih (List.cons_ne_nil a t)
      rw [argminIdx_cons2]
      by_cases hc : (a :: t).getD (argminIdx (a :: t)) 0 < k
      · rw [if_pos hc]; simpa using Nat.succ_lt_succ h
      · rw [if_neg hc]; simp

theorem argminIdx_le (l : List ℤ) :
    ∀ j, j < l.length → l.getD (argminIdx l) 0 ≤ l.getD j 0 := by
  induction l with
  | nil => intro j hj; simp at hj
  | cons k ks ih =>
    intro j hj
    cases ks with
    | nil =>
      have hj0 : j = 0 := by simpa using Nat.lt_one_iff.mp (by simpa using hj)
      subst hj0
      simp [argminIdx]
    | cons a t =>
      rw [argminIdx_cons2]
      by_cases hc : (a :: t).getD (argminIdx (a :: t)) 0 < k
      · rw [if_pos hc, List.getD_cons_succ]
        cases j with
        | zero => rw [List.getD_cons_zero]; exact le_of_lt hc
        | succ j => rw [List.getD_cons_succ]; exact ih j (by simpa using hj)
      · rw [if_neg hc, List.getD_cons_zero]
        cases j with
        | zero => rw [List.getD_cons_zero]
        | succ j =>
          rw [List.getD_cons_succ]
          exact le_trans (not_lt.mp hc) (ih j (by simpa using hj))

theorem argminIdx_first (l : List ℤ) :
    ∀ j, j < argminIdx l → l.getD (argminIdx l) 0 < l.getD j 0 := by
  induction l with
  | nil => intro j hj; simp [argminIdx] at hj
  | cons k ks ih =>
    intro j hj
    cases ks with
    | nil => simp [argminIdx] at hj
    | cons a t =>
      rw [argminIdx_cons2] at hj ⊢
      by_cases hc : (a :: t).getD (argminIdx (a :: t)) 0 < k
      · rw [if_pos hc] at hj ⊢
        rw [List.getD_cons_succ]
        cases j with
        | zero => rw [List.getD_cons_zero]; exact hc
        | succ j => rw [List.getD_cons_succ]; exact ih j (Nat.lt_of_succ_lt_succ hj)
      · rw [if_neg hc] at hj
        exact absurd hj (Nat.not_lt_zero j)

theorem argmaxIdx_lt (l : List ℤ) (hl : l ≠ []) : argmaxIdx l < l.length := by
  induction l with
  | nil => exact absurd rfl hl
  | cons k ks ih =>
    cases ks with
    | nil => simp [argmaxIdx]
    | cons a t =>
      have h := ih (List.cons_ne_nil a t)
      rw [argmaxIdx_cons2]
      by_cases hc : k < (a :: t).getD (argmaxIdx (a :: t)) 0
      · rw [if_pos hc]; simpa using Nat.succ_lt_succ h
      · rw [if_neg hc]; simp

theorem argmaxIdx_ge (l : List ℤ) :
    ∀ j, j < l.length → l.getD j 0 ≤ l.getD (argmaxIdx l) 0 := by
  induction l with
  | nil => intro j hj; simp at hj
  | cons k ks ih =>
    intro j hj
    cases ks with
    | nil =>
      have hj0 : j = 0 := by simpa using Nat.lt_one_iff.mp (by simpa using hj)
      subst hj0
      simp [argmaxIdx]
    | cons a t =>
      rw [argmaxIdx_cons2]
      by_cases hc : k < (a :: t).getD (argmaxIdx (a :: t)) 0
      · rw [if_pos hc, List.getD_cons_succ]
        cases j with
        | zero => rw [List.getD_cons_zero]; exact le_of_lt hc
        | succ j => rw [List.getD_cons_succ]; exact ih j (by simpa using hj)
      · rw [if_neg hc, List.getD_cons_zero]
        cases j with
        | zero => rw [List.getD_cons_zero]
        | succ j =>
          rw [List.getD_cons_succ]
          exact le_trans (ih j (by simpa using hj)) (not_lt.mp hc)

theorem argmaxIdx_first (l : List ℤ) :
    ∀ j, j < argmaxIdx l → l.getD j 0 < l.getD (argmaxIdx l) 0 := by
  induction l with
  | nil => intro j hj; simp [argmaxIdx] at hj
  | cons k ks ih =>
    intro j hj
    cases ks with
    | nil => simp [argmaxIdx] at hj
    | cons a t =>
      rw [argmaxIdx_cons2] at hj ⊢
      by_cases hc : k < (a :: t).getD (argmaxIdx (a :: t)) 0
      · rw [if_pos hc] at hj ⊢
        rw [List.getD_cons_succ]
        cases j with
        | zero => rw [List.getD_cons_zero]; exact hc
        | succ j => rw [List.getD_cons_succ]; exact ih j (Nat.lt_of_succ_lt_succ hj)
      · rw [if_neg hc] at hj
        exact absurd hj (Nat.not_lt_zero j)

theorem getD_map_key (key : Pt → ℤ) (l : List Pt) (j : ℕ) (hj : j < l.length) :
    (l.map key).getD j 0 = key (l.getD j (0, 0)) := by
  rw [List.getD_eq_getElem _ _ (by simpa using hj), List.getD_eq_getElem _ _ hj,
    List.getElem_map]

theorem firstMinOf_argmin (key : Pt → ℤ) (l : List Pt) (hl : l ≠ []) :
    FirstMinOf key l (l.getD (argminIdx (l.map key)) (0, 0)) := by
  have hlen : (l.map key).length = l.length := List.length_map _ _
  have hne : l.map key ≠ [] := by
    cases l with
    | nil => exact absurd rfl hl
    | cons a t => simp
  have hm : argminIdx (l.map key) < l.length := hlen ▸ argminIdx_lt (l.map key) hne
  refine ⟨argminIdx (l.map key), hm, rfl, ?_, ?_⟩
  · intro j hj
    have := argminIdx_le (l.map key) j (by rwa [hlen])
    rwa [getD_map_key key l _ hm, getD_map_key key l j hj] at this
  · intro j hj
    have hjl : j < l.length := lt_trans hj hm
    have := argminIdx_first (l.map key) j hj
    rwa [getD_map_key key l _ hm, getD_map_key key l j hjl] at this

theorem firstMaxOf_argmax (key : Pt → ℤ) (l : List Pt) (hl : l ≠ []) :
    FirstMaxOf key l (l.getD (argmaxIdx (l.map key)) (0, 0)) := by
  have hlen : (l.map key).length = l.length := List.length_map _ _
  have hne : l.map key ≠ [] := by
    cases l with
    | nil => exact absurd rfl hl
    | cons a t => simp
  have hm : argmaxIdx (l.map key) < l.length := hlen ▸ argmaxIdx_lt (l.map key) hne
  refine ⟨argmaxIdx (l.map key), hm, rfl, ?_, ?_⟩
  · intro j hj
    have := argmaxIdx_ge (l.map key) j (by rwa [hlen])
    rwa [getD_map_key key l _ hm, getD_map_key key l j hj] at this
  · intro j hj
    have hjl : j < l.length := lt_trans hj hm
    have := argmaxIdx_first (l.map key) j hj
    rwa [getD_map_key key l _ hm, getD_map_key key l j hjl] at this

theorem firstMin_keyDiff_iff (l : List Pt) (p : Pt) :
    FirstMinOf keyDiff l p ↔ FirstMaxOf keyXY l p := by
  unfold FirstMinOf FirstMaxOf keyDiff keyXY
  constructor <;>
    · rintro ⟨i, hi, hp, hle, hlt⟩
      refine ⟨i, hi, hp, fun j hj => ?_, fun j hj => ?_⟩
      · have := hle j hj; omega
      · have := hlt j hj; omega

theorem firstMax_keyDiff_iff (l : List Pt) (p : Pt) :
    FirstMaxOf keyDiff l p ↔ FirstMinOf keyXY l p := by
  unfold FirstMinOf FirstMaxOf keyDiff keyXY
  constructor <;>
    · rintro ⟨i, hi, hp, hle, hlt⟩
      refine ⟨i, hi, hp, fun j hj => ?_, fun j hj => ?_⟩
      · have := hle j hj; omega
      · have := hlt j hj; omega

/-- C2 (amended): for any 4 input points, `order_points` picks as top-left the
first-occurrence minimizer of x+y, as bottom-right the first-occurrence
maximizer of x+y, as top-right the first-occurrence MAXIMIZER of x-y, and as
bottom-left the first-occurrence MINIMIZER of x-y (the claim stated the last
two with minimum and maximum exchanged); ties are broken in favor of the
first point in input order. -/
theorem C2_order_points_keys (p0 p1 p2 p3 : Pt) :
    FirstMinOf keySum [p0, p1, p2, p3] (order_points [p0, p1, p2, p3]).tl ∧
    FirstMaxOf keyXY [p0, p1, p2, p3] (order_points [p0, p1, p2, p3]).tr ∧
    FirstMaxOf keySum [p0, p1, p2, p3] (order_points [p0, p1, p2, p3]).br ∧
    FirstMinOf keyXY [p0, p1, p2, p3] (order_points [p0, p1, p2, p3]).bl := by
  have hl : ([p0, p1, p2, p3] : List Pt) ≠ [] := List.cons_ne_nil _ _
  refine ⟨firstMinOf_argmin keySum _ hl, ?_, firstMaxOf_argmax keySum _ hl, ?_⟩
  · exact (firstMin_keyDiff_iff _ _).mp (firstMinOf_argmin keyDiff _ hl)
  · exact (firstMax_keyDiff_iff _ _).mp (firstMaxOf_argmax keyDiff _ hl)

/-- C2 (counterexample): on the axis-aligned square (0,0),(4,0),(4,4),(0,4)
the code returns top-right (4,0) and bottom-left (0,4), while the selection
rule worded in the claim (top-right minimizes x-y, bottom-left maximizes
x-y) returns top-right (0,4) and bottom-left (4,0); the claim as stated is
therefore false of `order_points`. -/
theorem C2_claim_counterexample :
    order_points [(0, 0), (4, 0), (4, 4), (0, 4)] =
      { tl := (0, 0), tr := (4, 0), br := (4, 4), bl := (0, 4) } ∧
    claimOrderPoints [(0, 0), (4, 0), (4, 4), (0, 4)] =
      { tl := (0, 0), tr := (0, 4), br := (4, 4), bl := (4, 0) } ∧
    order_points [(0, 0), (4, 0), (4, 4), (0, 4)] ≠
      claimOrderPoints [(0, 0), (4, 0), (4, 4), (0, 4)] :=
  ⟨by decide, by decide, by decide⟩

theorem getD_mem_of_lt (l : List Pt) (i : ℕ) (hi : i < l.length) :
    l.getD i (0, 0) ∈ l := by
  rw [List.getD_eq_getElem _ _ hi]
  exact List.getElem_mem hi

theorem argmin_unique (key : Pt → ℤ) (l : List Pt) (p : Pt) (hp : p ∈ l)
    (hu : ∀ q ∈ l, q ≠ p → key p < key q) :
    l.getD (argminIdx (l.map key)) (0, 0) = p := by
  have hl : l ≠ [] := by rintro rfl; simp at hp
  obtain ⟨i, hi, hr, hle, -⟩ := firstMinOf_argmin key l hl
  set r := l.getD (argminIdx (l.map key)) (0, 0) with hrdef
  by_contra hne
  have hrmem : r ∈ l := hr ▸ getD_mem_of_lt l i hi
  have h1 : key p < key r := hu r hrmem hne
  obtain ⟨j, hj, hpj⟩ := List.mem_iff_getElem.mp hp
  have h2 : key r ≤ key p := by
    have := hle j hj
    rwa [List.getD_eq_getElem _ _ hj, hpj] at this
  omega

theorem argmax_unique (key : Pt → ℤ) (l : List Pt) (p : Pt) (hp : p ∈ l)
    (hu : ∀ q ∈ l, q ≠ p → key q < key p) :
    l.getD (argmaxIdx (l.map key)) (0, 0) = p := by
  have hl : l ≠ [] := by rintro rfl; simp at hp
  obtain ⟨i, hi, hr, hle, -⟩ := firstMaxOf_argmax key l hl
  set r := l.getD (argmaxIdx (l.map key)) (0, 0) with hrdef
  by_contra hne
  have hrmem : r ∈ l := hr ▸ getD_mem_of_lt l i hi
  have h1 : key r < key p := hu r hrmem hne
  obtain ⟨j, hj, hpj⟩ := List.mem_iff_getElem.mp hp
  have h2 : key p ≤ key r := by
    have := hle j hj
    rwa [List.getD_eq_getElem _ _ hj, hpj] at this
  omega

theorem order_points_of_unique (l : List Pt) (a b c d : Pt)
    (ha : a ∈ l ∧ ∀ q ∈ l, q ≠ a → keySum a < keySum q)
    (hc : c ∈ l ∧ ∀ q ∈ l, q ≠ c → keySum q < keySum c)
    (hb : b ∈ l ∧ ∀ q ∈ l, q ≠ b → keyXY q < keyXY b)
    (hd : d ∈ l ∧ ∀ q ∈ l, q ≠ d → keyXY d < keyXY q) :
    order_points l = { tl := a, tr := b, br := c, bl := d } := by
  have h1 : (order_points l).tl = a := argmin_unique keySum l a ha.1 ha.2
  have h3 : (order_points l).br = c := argmax_unique keySum l c hc.1 hc.2
  have h2 : (order_points l).tr = b := by
    refine argmin_unique keyDiff l b hb.1 (fun q hq hne => ?_)
    have := hb.2 q hq hne
    unfold keyXY at this
    unfold keyDiff
    omega
  have h4 : (order_points l).bl = d := by
    refine argmax_unique keyDiff l d hd.1 (fun q hq hne => ?_)
    have := hd.2 q hq hne
    unfold keyXY at this
    unfold keyDiff
    omega
  have he : order_points l =
      { tl := (order_points l).tl, tr := (order_points l).tr,
        br := (order_points l).br, bl := (order_points l).bl } := rfl
  rw [he, h1, h2, h3, h4]

/-- C7 (confirmed): point ordering is permutation-invariant.  For 4 points
whose ordering keys (coordinate sum for top-left and bottom-right, x-y for
top-right and bottom-left) each have a unique extremum, `order_points`
returns the same canonical quadrilateral on any permutation of the input. -/
theorem C7_order_points_perm_invariant (l1 l2 : List Pt) (a b c d : Pt)
    (hperm : l1.Perm l2) (hlen : l1.length = 4)
    (ha : a ∈ l1 ∧ ∀ q ∈ l1, q ≠ a → keySum a < keySum q)
    (hc : c ∈ l1 ∧ ∀ q ∈ l1, q ≠ c → keySum q < keySum c)
    (hb : b ∈ l1 ∧ ∀ q ∈ l1, q ≠ b → keyXY q < keyXY b)
    (hd : d ∈ l1 ∧ ∀ q ∈ l1, q ≠ d → keyXY d < keyXY q) :
    order_points l1 = { tl := a, tr := b, br := c, bl := d } ∧
    order_points l2 = { tl := a, tr := b, br := c, bl := d } := by
  refine ⟨order_points_of_unique l1 a b c d ha hc hb hd,
    order_points_of_unique l2 a b c d ?_ ?_ ?_ ?_⟩
  · exact ⟨hperm.mem_iff.mp ha.1, fun q hq => ha.2 q (hperm.mem_iff.mpr hq)⟩
  · exact ⟨hperm.mem_iff.mp hc.1, fun q hq => hc.2 q (hperm.mem_iff.mpr hq)⟩
  · exact ⟨hperm.mem_iff.mp hb.1, fun q hq => hb.2 q (hperm.mem_iff.mpr hq)⟩
  · exact ⟨hperm.mem_iff.mp hd.1, fun q hq => hd.2 q (hperm.mem_iff.mpr hq)⟩

/-- C7 (witness): the square (0,0),(4,0),(4,4),(0,4) and the permutation
that swaps its first two corners order to the same canonical quadrilateral. -/
theorem C7_witness :
    order_points [(0, 0), (4, 0), (4, 4), (0, 4)] =
      { tl := (0, 0), tr := (4, 0), br := (4, 4), bl := (0, 4) } ∧
    order_points [(4, 0), (0, 0), (4, 4), (0, 4)] =
      { tl := (0, 0), tr := (4, 0), br := (4, 4), bl := (0, 4) } :=
  C7_order_points_perm_invariant
    [(0, 0), (4, 0), (4, 4), (0, 4)] [(4, 0), (0, 0), (4, 4), (0, 4)]
    (0, 0) (4, 0) (4, 4) (0, 4)
    (List.Perm.swap _ _ _) (by decide)
    ⟨by decide, by decide⟩ ⟨by decide, by decide⟩ ⟨by decide, by decide⟩ ⟨by decide, by decide⟩

theorem floor_max_sqrt (a b : ℕ) :
    ⌊max (Real.sqrt a) (Real.sqrt b)⌋₊ = max (Nat.sqrt a) (Nat.sqrt b) := by
  rcases le_total a b with h | h
  · rw [max_eq_right (Real.sqrt_le_sqrt (by exact_mod_cast h)),
      max_eq_right (Nat.sqrt_le_sqrt h), Real.nat_floor_real_sqrt_eq_nat_sqrt]
  · rw [max_eq_left (Real.sqrt_le_sqrt (by exact_mod_cast h)),
      max_eq_left (Nat.sqrt_le_sqrt h), Real.nat_floor_real_sqrt_eq_nat_sqrt]

/-- C4 (confirmed): for every canonically ordered quadrilateral the rectifier
computes output width = floor of max(dist(br,bl), dist(tr,tl)) and output
height = floor of max(dist(tr,br), dist(tl,bl)); the destination rectangle is
(0,0), (w-1,0), (w-1,h-1), (0,h-1) in canonical order; and
`correct_perspective` hands exactly the ordered source corners and this
destination rectangle, in that order, to the homography solver, resampling at
size (w, h). -/
theorem C4_rectifier_dims (P : CV) (image : ColorImg) (cnt : Contour) (q : Quad) :
    maxWidthOf q =
      ⌊max (Real.sqrt (sqDist q.br q.bl : ℕ)) (Real.sqrt (sqDist q.tr q.tl : ℕ))⌋₊ ∧
    maxHeightOf q =
      ⌊max (Real.sqrt (sqDist q.tr q.br : ℕ)) (Real.sqrt (sqDist q.tl q.bl : ℕ))⌋₊ ∧
    dstQuad (maxWidthOf q) (maxHeightOf q) =
      { tl := (0, 0), tr := ((maxWidthOf q : ℤ) - 1, 0),
        br := ((maxWidthOf q : ℤ) - 1, (maxHeightOf q : ℤ) - 1),
        bl := (0, (maxHeightOf q : ℤ) - 1) } ∧
    correct_perspective P image cnt =
      P.warpPerspective image
        (P.getPerspectiveTransform (order_points cnt)
          (dstQuad (maxWidthOf (order_points cnt)) (maxHeightOf (order_points cnt))))
        (maxWidthOf (order_points cnt), maxHeightOf (order_points cnt)) := by
  refine ⟨?_, ?_, rfl, rfl⟩
  · rw [floor_max_sqrt]; rfl
  · rw [floor_max_sqrt]; rfl

/-- C4 (witness): the computed dimensions of a concrete 4 x 3 rectangle. -/
theorem C4_witness :
    maxWidthOf { tl := (0, 0), tr := (4, 0), br := (4, 3), bl := (0, 3) } =
      ⌊max (Real.sqrt (sqDist ((4 : ℤ), (3 : ℤ)) ((0 : ℤ), (3 : ℤ)) : ℕ))
        (Real.sqrt (sqDist ((4 : ℤ), (0 : ℤ)) ((0 : ℤ), (0 : ℤ)) : ℕ))⌋₊ :=
  (C4_rectifier_dims P0 img0 quadC
    { tl := (0, 0), tr := (4, 0), br := (4, 3), bl := (0, 3) }).1

theorem sqDist_eq_zero (p q : Pt) : sqDist p q = 0 ↔ p = q := by
  unfold sqDist
  rw [Int.toNat_eq_zero]
  constructor
  · intro h
    have h1 : (p.1 - q.1) ^ 2 = 0 := by nlinarith [sq_nonneg (p.1 - q.1), sq_nonneg (p.2 - q.2)]
    have h2 : (p.2 - q.2) ^ 2 = 0 := by nlinarith [sq_nonneg (p.1 - q.1), sq_nonneg (p.2 - q.2)]
    have e1 : p.1 = q.1 := by nlinarith [sq_nonneg (p.1 - q.1)]
    have e2 : p.2 = q.2 := by nlinarith [sq_nonneg (p.2 - q.2)]
    exact Prod.ext e1 e2
  · rintro rfl
    simp

/-- C8 (confirmed): for every quadrilateral satisfying the data-model
invariant of enclosing positive area (nonzero shoelace sum), the integer
output dimensions computed by the rectifier are both at least 1. -/
theorem C8_dims_positive (q : Quad) (h : shoelace q ≠ 0) :
    1 ≤ maxWidthOf q ∧ 1 ≤ maxHeightOf q := by
  constructor
  · by_contra hw
    have h0 : maxWidthOf q = 0 := by omega
    obtain ⟨ha, hb⟩ := Nat.max_eq_zero_iff.mp h0
    rw [Nat.sqrt_eq_zero] at ha hb
    have hbl : q.br = q.bl := (sqDist_eq_zero _ _).mp ha
    have htl : q.tr = q.tl := (sqDist_eq_zero _ _).mp hb
    apply h
    unfold shoelace
    rw [hbl, htl]
    ring
  · by_contra hw
    have h0 : maxHeightOf q = 0 := by omega
    obtain ⟨ha, hb⟩ := Nat.max_eq_zero_iff.mp h0
    rw [Nat.sqrt_eq_zero] at ha hb
    have hbr : q.tr = q.br := (sqDist_eq_zero _ _).mp ha
    have hbl2 : q.tl = q.bl := (sqDist_eq_zero _ _).mp hb
    apply h
    unfold shoelace
    rw [hbr, hbl2]
    ring

/-- C8 (witness): the 4 x 3 rectangle has nonzero shoelace sum and output
dimensions at least 1 x 1. -/
theorem C8_witness :
    1 ≤ maxWidthOf { tl := (0, 0), tr := (4, 0), br := (4, 3), bl := (0, 3) } ∧
    1 ≤ maxHeightOf { tl := (0, 0), tr := (4, 0), br := (4, 3), bl := (0, 3) } :=
  C8_dims_positive { tl := (0, 0), tr := (4, 0), br := (4, 3), bl := (0, 3) } (by decide)

theorem firstQuad_cons (P : CV) (c : Contour) (t : List Contour) :
    firstQuad P (c :: t) =
      if (approxOf P c).length = 4 then some (approxOf P c) else firstQuad P t := by
  have hdef : firstQuad P (c :: t) =
      match quadStep P c with
      | some q => some q
      | none => firstQuad P t := rfl
  rw [hdef]
  unfold quadStep
  by_cases h : (approxOf P c).length = 4
  · simp only [if_pos h]
  · simp only [if_neg h]

theorem firstQuad_none_iff (P : CV) (l : List Contour) :
    firstQuad P l = none ↔ ∀ c ∈ l, (approxOf P c).length ≠ 4 := by
  induction l with
  | nil => simp [firstQuad]
  | cons c t ih =>
    rw [firstQuad_cons]
    by_cases h : (approxOf P c).length = 4
    · simp [h]
    · simp [h, ih]

theorem firstQuad_some_iff (P : CV) (l : List Contour) (q : Contour) :
    firstQuad P l = some q ↔
      ∃ i, ∃ hi : i < l.length, q = approxOf P (l.get ⟨i, hi⟩) ∧
        (approxOf P (l.get ⟨i, hi⟩)).length = 4 ∧
        ∀ j, ∀ hj : j < l.length, j < i → (approxOf P (l.get ⟨j, hj⟩)).length ≠ 4 := by
  induction l with
  | nil => simp [firstQuad]
  | cons c t ih =>
    rw [firstQuad_cons]
    by_cases h : (approxOf P c).length = 4
    · rw [if_pos h]
      constructor
      · intro hq
        refine ⟨0, by simp, ?_, by simpa using h, fun j hj hji => absurd hji (Nat.not_lt_zero j)⟩
        simpa using (Option.some.inj hq).symm
      · rintro ⟨i, hi, hq, h4, hfirst⟩
        cases i with
        | zero => subst hq; rfl
        | succ i =>
          exact absurd (by simpa using h) (hfirst 0 (by simp) (Nat.succ_pos i))
    · rw [if_neg h, ih]
      constructor
      · rintro ⟨i, hi, hq, h4, hfirst⟩
        refine ⟨i + 1, by simpa using Nat.succ_lt_succ hi, by simpa using hq,
          by simpa using h4, fun j hj hji => ?_⟩
        cases j with
        | zero => simpa using h
        | succ j =>
          simpa using hfirst j (by simpa using hj) (Nat.lt_of_succ_lt_succ hji)
      · rintro ⟨i, hi, hq, h4, hfirst⟩
        cases i with
        | zero => exact absurd (by simpa using h4) h
        | succ i =>
          refine ⟨i, by simpa using hi, by simpa using hq, by simpa using h4,
            fun j hj hji => ?_⟩
          simpa using hfirst (j + 1) (by simpa using Nat.succ_lt_succ hj)
            (Nat.succ_lt_succ hji)

/-- C3 (confirmed): `detect_document_contour` scans a permutation of the
extracted contours sorted by area descending, examines at most its first 5
entries, approximates each at 2 percent of its perimeter (`approxOf`), and
returns the first approximation with exactly 4 vertices; it returns `none`
exactly when there are no contours, or none of the top 5 approximations has
exactly 4 vertices. -/
theorem C3_contour_detection (P : CV) (img : GrayImg) :
    (sortedContours P (P.findContours img)).Perm (P.findContours img) ∧
    List.Sorted (areaGE P) (sortedContours P (P.findContours img)) ∧
    (detect_document_contour P img = none ↔
      P.findContours img = [] ∨
        ∀ c ∈ (sortedContours P (P.findContours img)).take 5, (approxOf P c).length ≠ 4) ∧
    (∀ q, detect_document_contour P img = some q ↔
      ∃ i, ∃ hi : i < ((sortedContours P (P.findContours img)).take 5).length,
        q = approxOf P (((sortedContours P (P.findContours img)).take 5).get ⟨i, hi⟩) ∧
        (approxOf P (((sortedContours P (P.findContours img)).take 5).get ⟨i, hi⟩)).length = 4 ∧
        ∀ j, ∀ hj : j < ((sortedContours P (P.findContours img)).take 5).length,
          j < i →
            (approxOf P (((sortedContours P (P.findContours img)).take 5).get ⟨j, hj⟩)).length
              ≠ 4) := by
  refine ⟨List.perm_insertionSort _ _, List.sorted_insertionSort _ _, ?_, ?_⟩
  · cases hC : P.findContours img with
    | nil =>
      unfold detect_document_contour
      rw [hC]
      simp
    | cons c0 rest =>
      unfold detect_document_contour
      rw [hC, firstQuad_none_iff]
      constructor
      · exact fun h => Or.inr h
      · rintro (h | h)
        · exact absurd h (List.cons_ne_nil c0 rest)
        · exact h
  · intro q
    cases hC : P.findContours img with
    | nil =>
      unfold detect_document_contour
      rw [hC]
      simp [sortedContours, List.insertionSort]
    | cons c0 rest =>
      unfold detect_document_contour
      rw [hC, firstQuad_some_iff]

/-- C3 (witness): with a contour extractor reporting no contours, detection
returns the distinct no-contour result. -/
theorem C3_witness : detect_document_contour P1 (cvtBGR2GRAY img0) = none :=
  (C3_contour_detection P1 (cvtBGR2GRAY img0)).2.2.1.mpr (Or.inl rfl)

theorem adaptiveThreshold11_binary (mean src : GrayImg) (i j : ℕ) :
    (adaptiveThreshold11 mean src).pix i j = 0 ∨
      (adaptiveThreshold11 mean src).pix i j = 255 := by
  unfold adaptiveThreshold11
  by_cases h : (mean.pix i j : ℤ) - 2 < (src.pix i j : ℤ)
  · right; simp [h]
  · left; simp [h]

theorem med9_mem (l : List ℕ) (hl : l.length = 9) : med9 l ∈ l := by
  unfold med9
  have hperm := List.perm_insertionSort (· ≤ ·) l
  have h4 : 4 < (List.insertionSort (· ≤ ·) l).length := by
    rw [hperm.length_eq, hl]; omega
  rw [List.getD_eq_getElem _ _ h4]
  exact hperm.mem_iff.mp (List.getElem_mem h4)

theorem medianBlur3_binary (g : GrayImg)
    (hb : ∀ i j, g.pix i j = 0 ∨ g.pix i j = 255) :
    ∀ i j, (medianBlur3 g).pix i j = 0 ∨ (medianBlur3 g).pix i j = 255 := by
  intro i j
  have hmem : med9 (nbhd9 g i j) ∈ nbhd9 g i j := med9_mem _ rfl
  rcases List.mem_map.mp hmem with ⟨d, -, hd⟩
  show med9 (nbhd9 g i j) = 0 ∨ med9 (nbhd9 g i j) = 255
  rw [← hd]
  exact hb _ _

theorem enhance_color_binary (P : CV) (c : ColorImg) (i j : ℕ) :
    (cvtGRAY2BGR (medianBlur3
      (adaptiveThreshold11 (P.gaussMean11 (cvtBGR2GRAY c)) (cvtBGR2GRAY c)))).pix i j =
        (0, 0, 0) ∨
    (cvtGRAY2BGR (medianBlur3
      (adaptiveThreshold11 (P.gaussMean11 (cvtBGR2GRAY c)) (cvtBGR2GRAY c)))).pix i j =
        (255, 255, 255) := by
  have hb := medianBlur3_binary (adaptiveThreshold11 (P.gaussMean11 (cvtBGR2GRAY c))
    (cvtBGR2GRAY c)) (fun a b => adaptiveThreshold11_binary _ _ a b) i j
  rcases hb with h | h
  · left
    show (medianBlur3 _ |>.pix i j, medianBlur3 _ |>.pix i j, medianBlur3 _ |>.pix i j) =
      (0, 0, 0)
    rw [h]
  · right
    show (medianBlur3 _ |>.pix i j, medianBlur3 _ |>.pix i j, medianBlur3 _ |>.pix i j) =
      (255, 255, 255)
    rw [h]

set_option maxHeartbeats 1600000 in
/-- C9 (confirmed): `enhance_image` is binary-valued — every pixel of every
channel of its output is 0 or 255, a 3-channel input produces a 3-channel
output with the three channels equal at every pixel (so each pixel is
(0,0,0) or (255,255,255)), the buffer shape is preserved, and consequently
`process_document` (which returns an `enhance_image` result on both the
rectified and the fallback path) only ever returns such binary buffers. -/
theorem C9_enhance_binary (P : CV) (c : ColorImg) (g : GrayImg) :
    (∃ outc : ColorImg, enhance_image P (Image.color c) = Image.color outc ∧
      outc.h = c.h ∧ outc.w = c.w ∧
      ∀ i j, outc.pix i j = (0, 0, 0) ∨ outc.pix i j = (255, 255, 255)) ∧
    (∃ outg : GrayImg, enhance_image P (Image.gray g) = Image.gray outg ∧
      outg.h = g.h ∧ outg.w = g.w ∧
      ∀ i j, outg.pix i j = 0 ∨ outg.pix i j = 255) ∧
    (∀ r, process_document P c = some r →
      ∃ outc : ColorImg, r = Image.color outc ∧
        ∀ i j, outc.pix i j = (0, 0, 0) ∨ outc.pix i j = (255, 255, 255)) := by
  refine ⟨?_, ?_, ?_⟩
  · exact ⟨cvtGRAY2BGR (medianBlur3 (adaptiveThreshold11
      (P.gaussMean11 (cvtBGR2GRAY c)) (cvtBGR2GRAY c))), rfl, rfl, rfl,
      fun i j => enhance_color_binary P c i j⟩
  · exact ⟨medianBlur3 (adaptiveThreshold11 (P.gaussMean11 g) g), rfl, rfl, rfl, fun i j =>
      medianBlur3_binary (adaptiveThreshold11 (P.gaussMean11 g) g)
        (fun a b => adaptiveThreshold11_binary (P.gaussMean11 g) g a b) i j⟩
  intro r hr
  unfold process_document at hr
  cases hdet : detect_document_contour P (preprocess_image P c) with
  | some cnt =>
    rw [hdet] at hr
    refine ⟨_, (Option.some.inj hr).symm, fun i j => enhance_color_binary P _ i j⟩
  | none =>
    rw [hdet] at hr
    refine ⟨_, (Option.some.inj hr).symm, fun i j => enhance_color_binary P _ i j⟩

/-- C9 (witness): the binary-output property instantiated on the fallback run
of `process_document` over the uniform test buffer. -/
theorem C9_witness :
    ∃ outc : ColorImg,
      enhance_image P1 (Image.color img0) = Image.color outc ∧
      ∀ i j, outc.pix i j = (0, 0, 0) ∨ outc.pix i j = (255, 255, 255) :=
  (C9_enhance_binary P1 img0 (cvtBGR2GRAY img0)).2.2
    (enhance_image P1 (Image.color img0)) rfl

/-- C5 (confirmed): when contour detection finds no quadrilateral,
`process_document` returns the enhancement applied directly to the original
buffer — no rectification — the output buffer has the input's width and
height, and the call succeeds (returns a buffer, never an invalid-buffer
failure, which in this total model is the only possible outcome). -/
theorem C5_fallback_path (P : CV) (c : ColorImg)
    (h : detect_document_contour P (preprocess_image P c) = none) :
    process_document P c = some (enhance_image P (Image.color c)) ∧
    ∃ outc : ColorImg, enhance_image P (Image.color c) = Image.color outc ∧
      outc.h = c.h ∧ outc.w = c.w := by
  constructor
  · unfold process_document
    rw [h]
  · exact ⟨_, rfl, rfl, rfl⟩

/-- C5 (witness): the fallback run on the uniform test buffer with the
no-contour extractor. -/
theorem C5_witness :
    process_document P1 img0 = some (enhance_image P1 (Image.color img0)) ∧
    ∃ outc : ColorImg, enhance_image P1 (Image.color img0) = Image.color outc ∧
      outc.h = img0.h ∧ outc.w = img0.w :=
  C5_fallback_path P1 img0 rfl

theorem gridSum_nonneg (h w : ℕ) (f : ℕ → ℕ → ℚ) (hf : ∀ i j, 0 ≤ f i j) :
    0 ≤ gridSum h w f := by
  unfold gridSum
  apply List.sum_nonneg
  intro x hx
  rcases List.mem_map.mp hx with ⟨i, -, rfl⟩
  apply List.sum_nonneg
  intro y hy
  rcases List.mem_map.mp hy with ⟨j, -, rfl⟩
  exact hf i j

theorem laplacianVariance_nonneg (c : ColorImg) : 0 ≤ laplacianVariance c := by
  simp only [laplacianVariance]
  split
  · exact le_refl 0
  · exact div_nonneg (gridSum_nonneg _ _ _ (fun i j => sq_nonneg _)) (Nat.cast_nonneg _)

theorem selectLoop_cons (best : ColorImg) (mv : ℚ) (f : ColorImg) (t : List ColorImg) :
    selectLoop best mv (f :: t) =
      if mv < laplacianVariance f then selectLoop f (laplacianVariance f) t
      else selectLoop best mv t := rfl

theorem selectLoop_spec (l : List ColorImg) : ∀ (best : ColorImg) (mv : ℚ),
    (selectLoop best mv l = best ∧ ∀ f ∈ l, laplacianVariance f ≤ mv) ∨
    (∃ i, ∃ hi : i < l.length, selectLoop best mv l = l.get ⟨i, hi⟩ ∧
      mv < laplacianVariance (l.get ⟨i, hi⟩) ∧
      (∀ f ∈ l, laplacianVariance f ≤ laplacianVariance (l.get ⟨i, hi⟩)) ∧
      ∀ j, ∀ hj : j < l.length, j < i →
        laplacianVariance (l.get ⟨j, hj⟩) < laplacianVariance (l.get ⟨i, hi⟩)) := by
  induction l with
  | nil =>
    intro best mv
    left
    exact ⟨rfl, by simp⟩
  | cons f t ih =>
    intro best mv
    by_cases hc : mv < laplacianVariance f
    · have hstep : selectLoop best mv (f :: t) = selectLoop f (laplacianVariance f) t := by
        rw [selectLoop_cons, if_pos hc]
      rcases ih f (laplacianVariance f) with ⟨heq, hall⟩ | ⟨i, hi, heq, hgt, hmax, hfirst⟩
      · right
        refine ⟨0, Nat.succ_pos _, by rw [hstep, heq]; rfl, hc, ?_,
          fun j hj hj0 => absurd hj0 (Nat.not_lt_zero j)⟩
        intro x hx
        rcases List.mem_cons.mp hx with rfl | hxt
        · exact le_refl _
        · exact hall x hxt
      · right
        refine ⟨i + 1, Nat.succ_lt_succ hi, by rw [hstep, heq]; rfl, lt_trans hc hgt, ?_, ?_⟩
        · intro x hx
          rcases List.mem_cons.mp hx with rfl | hxt
          · exact le_of_lt hgt
          · exact hmax x hxt
        · intro j hj hji
          cases j with
          | zero => exact hgt
          | succ j => exact hfirst j (Nat.lt_of_succ_lt_succ hj) (Nat.lt_of_succ_lt_succ hji)
    · have hstep : selectLoop best mv (f :: t) = selectLoop best mv t := by
        rw [selectLoop_cons, if_neg hc]
      rcases ih best mv with ⟨heq, hall⟩ | ⟨i, hi, heq, hgt, hmax, hfirst⟩
      · left
        refine ⟨by rw [hstep, heq], ?_⟩
        intro x hx
        rcases List.mem_cons.mp hx with rfl | hxt
        · exact not_lt.mp hc
        · exact hall x hxt
      · right
        refine ⟨i + 1, Nat.succ_lt_succ hi, by rw [hstep, heq]; rfl, hgt, ?_, ?_⟩
        · intro x hx
          rcases List.mem_cons.mp hx with rfl | hxt
          · exact le_trans (not_lt.mp hc) (le_of_lt hgt)
          · exact hmax x hxt
        · intro j hj hji
          cases j with
          | zero => exact lt_of_le_of_lt (not_lt.mp hc) hgt
          | succ j => exact hfirst j (Nat.lt_of_succ_lt_succ hj) (Nat.lt_of_succ_lt_succ hji)

/-- C6 (confirmed): on a nonempty frame list, the sharpness selector returns
the first frame whose Laplacian variance (computed on the grayscale
conversion) attains the maximum over the sequence: the returned frame's
variance dominates every frame's, and every earlier frame has strictly
smaller variance. -/
theorem C6_sharpest_frame (fs : List ColorImg) (h : fs ≠ []) :
    ∃ i, ∃ hi : i < fs.length, select_sharpest_frame fs = some (fs.get ⟨i, hi⟩) ∧
      (∀ j, ∀ hj : j < fs.length,
        laplacianVariance (fs.get ⟨j, hj⟩) ≤ laplacianVariance (fs.get ⟨i, hi⟩)) ∧
      ∀ j, ∀ hj : j < fs.length, j < i →
        laplacianVariance (fs.get ⟨j, hj⟩) < laplacianVariance (fs.get ⟨i, hi⟩) := by
  cases fs with
  | nil => exact absurd rfl h
  | cons f t =>
    have hsel : select_sharpest_frame (f :: t) = some (selectLoop f 0 (f :: t)) := rfl
    rcases selectLoop_spec (f :: t) f 0 with ⟨heq, hall⟩ | ⟨i, hi, heq, hgt, hmax, hfirst⟩
    · refine ⟨0, Nat.succ_pos _, by rw [hsel, heq]; rfl, ?_,
        fun j hj hj0 => absurd hj0 (Nat.not_lt_zero j)⟩
      intro j hj
      exact le_trans (hall _ (List.get_mem _ _ _)) (laplacianVariance_nonneg _)
    · exact ⟨i, hi, by rw [hsel, heq], fun j hj => hmax _ (List.get_mem _ _ _), hfirst⟩

/-- C6 (witness): the selector applied to a two-frame burst. -/
theorem C6_witness :
    ∃ i, ∃ hi : i < ([frameA, frameB] : List ColorImg).length,
      select_sharpest_frame [frameA, frameB] =
        some (([frameA, frameB] : List ColorImg).get ⟨i, hi⟩) ∧
      (∀ j, ∀ hj : j < ([frameA, frameB] : List ColorImg).length,
        laplacianVariance (([frameA, frameB] : List ColorImg).get ⟨j, hj⟩) ≤
          laplacianVariance (([frameA, frameB] : List ColorImg).get ⟨i, hi⟩)) ∧
      ∀ j, ∀ hj : j < ([frameA, frameB] : List ColorImg).length, j < i →
        laplacianVariance (([frameA, frameB] : List ColorImg).get ⟨j, hj⟩) <
          laplacianVariance (([frameA, frameB] : List ColorImg).get ⟨i, hi⟩) :=
  C6_sharpest_frame [frameA, frameB] (List.cons_ne_nil _ _)

/-- C10 (confirmed): when every read of the burst fails (the captured
sequence is empty), `capture_high_quality` returns the distinct no-frame
result `none` rather than a frame; and the selector itself succeeds exactly
on nonempty inputs — `select_sharpest_frame fs = none` iff `fs = []`, the
empty case modelling the out-of-range `frames[0]` access that makes empty
input a contract violation at that boundary. -/
theorem C10_empty_burst (P : CV) (reads : List (Option ColorImg)) :
    (reads.filterMap id = [] → capture_high_quality P reads = none) ∧
    ∀ fs : List ColorImg, (select_sharpest_frame fs = none ↔ fs = []) := by
  constructor
  · intro h
    unfold capture_high_quality
    rw [h]
  · intro fs
    cases fs with
    | nil => simp [select_sharpest_frame]
    | cons f t => simp [select_sharpest_frame]

/-- C10 (witness): a burst whose single read failed yields the no-frame
result, and the selector on the empty list yields none. -/
theorem C10_witness :
    capture_high_quality P1 [none] = none ∧
    (select_sharpest_frame ([] : List ColorImg) = none ↔ ([] : List ColorImg) = []) :=
  ⟨(C10_empty_burst P1 [none]).1 rfl, (C10_empty_burst P1 [none]).2 []⟩

theorem r101_lt (n : ℕ) (i : ℤ) (hn : 0 < n) (h1 : -1 ≤ i) (h2 : i ≤ (n : ℤ)) :
    r101 n i < n := by
  unfold r101
  split
  · omega
  · split
    · omega
    · split
      · omega
      · omega

theorem sharpenConvAt_const (img : ColorImg) (ch : ℕ × ℕ × ℕ → ℕ) (v : ℕ) (i j : ℕ)
    (hi : i < img.h) (hj : j < img.w)
    (hc : ∀ a b, a < img.h → b < img.w → ch (img.pix a b) = v) :
    sharpenConvAt img ch i j = (v : ℤ) := by
  have hh : 0 < img.h := Nat.lt_of_le_of_lt (Nat.zero_le i) hi
  have hw : 0 < img.w := Nat.lt_of_le_of_lt (Nat.zero_le j) hj
  have hi2 : (i : ℤ) < (img.h : ℤ) := by exact_mod_cast hi
  have hj2 : (j : ℤ) < (img.w : ℤ) := by exact_mod_cast hj
  have hrm : r101 img.h ((i : ℤ) - 1) < img.h := r101_lt _ _ hh (by omega) (by omega)
  have hrp : r101 img.h ((i : ℤ) + 1) < img.h := r101_lt _ _ hh (by omega) (by omega)
  have hcm : r101 img.w ((j : ℤ) - 1) < img.w := r101_lt _ _ hw (by omega) (by omega)
  have hcp : r101 img.w ((j : ℤ) + 1) < img.w := r101_lt _ _ hw (by omega) (by omega)
  unfold sharpenConvAt
  rw [hc i j hi hj,
    hc _ _ hrm hcm, hc _ _ hrm hj, hc _ _ hrm hcp,
    hc _ _ hi hcm, hc _ _ hi hcp,
    hc _ _ hrp hcm, hc _ _ hrp hj, hc _ _ hrp hcp]
  ring

/-- C1 (amended): when contour detection finds a quadrilateral, the
orchestrator applies perspective correction to the original (non-edge) input
buffer and then applies `enhance_image` — the document-style enhancement
(adaptive Gaussian-mean binarization with block 11 and constant 2, then a
3x3 median denoise, replicated back to 3 channels) — to the rectified
result, returning that enhanced buffer; it does NOT apply the visual-mode
(bilateral denoise, 3x3 sharpen, luminance CLAHE) pipeline, which exists in
the source only in the camera preview path. -/
theorem C1_rectify_then_enhance (P : CV) (c : ColorImg) (cnt : Contour)
    (h : detect_document_contour P (preprocess_image P c) = some cnt) :
    process_document P c =
      some (enhance_image P (Image.color (correct_perspective P c cnt))) := by
  unfold process_document
  rw [h]

/-- C1 (witness): the rectify-then-enhance run on the concrete externals that
detect the rectangle `quadC`. -/
theorem C1_witness :
    process_document P0 img0 =
      some (enhance_image P0 (Image.color (correct_perspective P0 img0 quadC))) :=
  C1_rectify_then_enhance P0 img0 quadC (by decide)

/-- C1 (counterexample): the claim — that on every input where detection
finds a quadrilateral the orchestrator returns the VISUAL-mode enhancement
(bilateral denoise, then the 3x3 center-9 neighbor-(-1) sharpen, then
luminance-only contrast recomposed with the chrominance channels) of the
rectified buffer — is false: on the concrete run that rectifies to a uniform
blue buffer, any function of that visual-mode shape preserves the nonzero
blue chrominance, while the code's returned buffer is channel-equal
(chrominance zero). -/
theorem C1_visual_mode_counterexample :
    ¬ ∀ (P : CV) (c : ColorImg) (cnt : Contour),
        detect_document_contour P (preprocess_image P c) = some cnt →
        ∃ f : ColorImg → ColorImg, VisualModeSpec f ∧
          process_document P c =
            some (Image.color (f (correct_perspective P c cnt))) := by
  intro hclaim
  obtain ⟨f, ⟨den, hden, hrec⟩, heq⟩ := hclaim P0 img0 quadC (by decide)
  have hs16 : Nat.sqrt 16 = 4 := by
    rw [show (16 : ℕ) = 4 * 4 from rfl]
    exact Nat.sqrt_eq 4
  have hs9 : Nat.sqrt 9 = 3 := by
    rw [show (9 : ℕ) = 3 * 3 from rfl]
    exact Nat.sqrt_eq 3
  have hop : order_points quadC =
      { tl := (0, 0), tr := (4, 0), br := (4, 3), bl := (0, 3) } := by decide
  have hw4 : maxWidthOf (order_points quadC) = 4 := by
    rw [hop]
    show max (Nat.sqrt (sqDist ((4 : ℤ), (3 : ℤ)) ((0 : ℤ), (3 : ℤ))))
      (Nat.sqrt (sqDist ((4 : ℤ), (0 : ℤ)) ((0 : ℤ), (0 : ℤ)))) = 4
    rw [show sqDist ((4 : ℤ), (3 : ℤ)) ((0 : ℤ), (3 : ℤ)) = 16 from by decide,
      show sqDist ((4 : ℤ), (0 : ℤ)) ((0 : ℤ), (0 : ℤ)) = 16 from by decide, hs16]
    exact max_self 4
  have hh3 : maxHeightOf (order_points quadC) = 3 := by
    rw [hop]
    show max (Nat.sqrt (sqDist ((4 : ℤ), (0 : ℤ)) ((4 : ℤ), (3 : ℤ))))
      (Nat.sqrt (sqDist ((0 : ℤ), (0 : ℤ)) ((0 : ℤ), (3 : ℤ)))) = 3
    rw [show sqDist ((4 : ℤ), (0 : ℤ)) ((4 : ℤ), (3 : ℤ)) = 9 from by decide,
      show sqDist ((0 : ℤ), (0 : ℤ)) ((0 : ℤ), (3 : ℤ)) = 9 from by decide, hs9]
    exact max_self 3
  have hrect : rect0 = blueImg := by
    show P0.warpPerspective img0
        (P0.getPerspectiveTransform (order_points quadC)
          (dstQuad (maxWidthOf (order_points quadC)) (maxHeightOf (order_points quadC))))
        (maxWidthOf (order_points quadC), maxHeightOf (order_points quadC)) = blueImg
    rw [hw4, hh3]
    rfl
  have hcomp : process_document P0 img0 =
      some (enhance_image P0 (Image.color rect0)) := by
    unfold process_document
    rw [show detect_document_contour P0 (preprocess_image P0 img0) = some quadC from
      by decide]
    rfl
  rw [hcomp] at heq
  have h4 : f rect0 = cvtGRAY2BGR (medianBlur3 (adaptiveThreshold11
      (P0.gaussMean11 (cvtBGR2GRAY rect0)) (cvtBGR2GRAY rect0))) :=
    (Image.color.inj (Option.some.inj heq)).symm
  rw [hrect] at h4
  obtain ⟨hdh, hdw, hbnd⟩ := hden blueImg
  have hdh3 : (den blueImg).h = 3 := hdh
  have hdw4 : (den blueImg).w = 4 := hdw
  have hminB : chanMin (fun p => p.1) blueImg = 255 := by decide
  have hmaxB : chanMax (fun p => p.1) blueImg = 255 := by decide
  have hminG : chanMin (fun p => p.2.1) blueImg = 0 := by decide
  have hmaxG : chanMax (fun p => p.2.1) blueImg = 0 := by decide
  have hminR : chanMin (fun p => p.2.2) blueImg = 0 := by decide
  have hmaxR : chanMax (fun p => p.2.2) blueImg = 0 := by decide
  have hconst : ∀ a b, a < blueImg.h → b < blueImg.w →
      (den blueImg).pix a b = (255, 0, 0) := by
    intro a b ha hb
    obtain ⟨⟨hB1, hB2⟩, ⟨hG1, hG2⟩, ⟨hR1, hR2⟩⟩ := hbnd a b ha hb
    rw [hminB] at hB1
    rw [hmaxB] at hB2
    rw [hminG] at hG1
    rw [hmaxG] at hG2
    rw [hminR] at hR1
    rw [hmaxR] at hR2
    exact Prod.ext (le_antisymm hB2 hB1) (Prod.ext (le_antisymm hG2 hG1) (le_antisymm hR2 hR1))
  have hcB : ∀ a b, a < (den blueImg).h → b < (den blueImg).w →
      ((den blueImg).pix a b).1 = 255 := by
    intro a b ha hb
    rw [hconst a b (by rw [hdh3] at ha; exact ha) (by rw [hdw4] at hb; exact hb)]
  have hcG : ∀ a b, a < (den blueImg).h → b < (den blueImg).w →
      ((den blueImg).pix a b).2.1 = 0 := by
    intro a b ha hb
    rw [hconst a b (by rw [hdh3] at ha; exact ha) (by rw [hdw4] at hb; exact hb)]
  have hcR : ∀ a b, a < (den blueImg).h → b < (den blueImg).w →
      ((den blueImg).pix a b).2.2 = 0 := by
    intro a b ha hb
    rw [hconst a b (by rw [hdh3] at ha; exact ha) (by rw [hdw4] at hb; exact hb)]
  have h0h : 0 < (den blueImg).h := by rw [hdh3]; omega
  have h0w : 0 < (den blueImg).w := by rw [hdw4]; omega
  have hsB := sharpenConvAt_const (den blueImg) (fun p => p.1) 255 0 0 h0h h0w hcB
  have hsG := sharpenConvAt_const (den blueImg) (fun p => p.2.1) 0 0 0 h0h h0w hcG
  have hsR := sharpenConvAt_const (den blueImg) (fun p => p.2.2) 0 0 0 h0h h0w hcR
  have h00 : (specSharpen (den blueImg)).pix 0 0 = (255, 0, 0) := by
    show (sat255 (sharpenConvAt (den blueImg) (fun p => p.1) 0 0),
        sat255 (sharpenConvAt (den blueImg) (fun p => p.2.1) 0 0),
        sat255 (sharpenConvAt (den blueImg) (fun p => p.2.2) 0 0)) = (255, 0, 0)
    rw [hsB, hsG, hsR]
    decide
  obtain ⟨-, -, hch⟩ := hrec blueImg
  have hch00 := hch 0 0 (by decide) (by decide)
  rw [h00] at hch00
  rw [h4] at hch00
  have hE : (cvtGRAY2BGR (medianBlur3 (adaptiveThreshold11
      (P0.gaussMean11 (cvtBGR2GRAY blueImg)) (cvtBGR2GRAY blueImg)))).pix 0 0 =
      (255, 255, 255) := by decide
  rw [hE] at hch00
  have hne : chromaOf (255, 255, 255) ≠ chromaOf (255, 0, 0) := by
    unfold chromaOf lumaOf
    intro hcontra
    have h1 := congrArg Prod.fst hcontra
    norm_num at h1
  exact absurd hch00 hne

/-- C2 (witness): the amended key characterization instantiated on the
axis-aligned square. -/
theorem C2_witness :
    FirstMinOf keySum [(0, 0), (4, 0), (4, 4), (0, 4)]
      (order_points [(0, 0), (4, 0), (4, 4), (0, 4)]).tl ∧
    FirstMaxOf keyXY [(0, 0), (4, 0), (4, 4), (0, 4)]
      (order_points [(0, 0), (4, 0), (4, 4), (0, 4)]).tr ∧
    FirstMaxOf keySum [(0, 0), (4, 0), (4, 4), (0, 4)]
      (order_points [(0, 0), (4, 0), (4, 4), (0, 4)]).br ∧
    FirstMinOf keyXY [(0, 0), (4, 0), (4, 4), (0, 4)]
      (order_points [(0, 0), (4, 0), (4, 4), (0, 4)]).bl :=
  C2_order_points_keys (0, 0) (4, 0) (4, 4) (0, 4)
